import Mathlib

/-!
Shallow embedding of `src/homer.py` (Homer Enhanced homepage generator).

Strings are modelled as `List Char`.  File I/O (template reading, input
reading, output writing) is the boundary of the embedding: functions that
read a file in Python take the file's text as an argument here.

* `pyStrip` embeds Python `str.strip()` (ASCII whitespace).
* `splitComma` embeds `str.split(',')`.
* `pyReplace` embeds `str.replace(old, new)` (leftmost, non-overlapping).
* `stampContent` embeds the replacement loop of `stamp_template`.
* `Link`, `LinkGroup`, `HomerModel` embed the classes of the same names;
  the `current_link_group` alias is modelled as an index into
  `link_groups`, per the aliasing discipline of the source (the only
  assignment to it is in `add_link_group`, where it refers to the group
  just appended).
* `processLine` / `processLinesFrom` embed `LinkParser.process_line` /
  `process_file`; printed errors and warnings are collected as lists of
  line numbers.
* `linkToString`, `groupToString`, `modelToString` embed the `to_string`
  methods in state-passing style: each returns the rendered text together
  with the post-call entity, so that absence of mutation is a provable
  statement rather than a modelling assumption.
-/

/-- Python `str.strip` whitespace set (ASCII part). -/
def isSpaceChar (c : Char) : Bool :=
  c = ' ' || c = '\t' || c = '\n' || c = '\r' || c = '\x0b' || c = '\x0c'

/-- Drop trailing characters satisfying `p`. -/
def dropWhileEnd (p : Char → Bool) : List Char → List Char
  | [] => []
  | c :: rest =>
    let r := dropWhileEnd p rest
    if r = [] ∧ p c then [] else c :: r

/-- Embeds Python `str.strip()`. -/
def pyStrip (s : List Char) : List Char :=
  dropWhileEnd isSpaceChar (s.dropWhile isSpaceChar)

/-- Embeds Python `str.split(',')`. -/
def splitComma : List Char → List (List Char)
  | [] => [[]]
  | c :: rest =>
    if c = ',' then [] :: splitComma rest
    else
      match splitComma rest with
      | [] => [[c]]
      | g :: gs => (c :: g) :: gs

/-- `leadsWith pat s` : does `s` start with `pat`? -/
def leadsWith : List Char → List Char → Bool
  | [], _ => true
  | _ :: _, [] => false
  | p :: ps, c :: cs => p = c && leadsWith ps cs

/-- `occursIn pat s` : does `pat` occur as a contiguous substring of `s`? -/
def occursIn (pat : List Char) : List Char → Bool
  | [] => leadsWith pat []
  | c :: rest => leadsWith pat (c :: rest) || occursIn pat rest

/-- Python `s.replace('', new)`: `new` is inserted around every character. -/
def replaceNilSep (new : List Char) : List Char → List Char
  | [] => new
  | c :: rest => new ++ (c :: replaceNilSep new rest)

/-- Fuel-indexed scanner for `str.replace` with a non-empty pattern:
leftmost match is replaced and scanning resumes after the consumed
pattern.  Fuel bounds the number of characters consumed. -/
def pyRepF (old new : List Char) : Nat → List Char → List Char
  | 0, s => s
  | _ + 1, [] => []
  | fuel + 1, c :: rest =>
    if leadsWith old (c :: rest) then
      new ++ pyRepF old new fuel (rest.drop (old.length - 1))
    else
      c :: pyRepF old new fuel rest

/-- Embeds Python `s.replace(old, new)`. -/
def pyReplace (s old new : List Char) : List Char :=
  match old with
  | [] => replaceNilSep new s
  | _ :: _ => pyRepF old new s.length s

/-- Embeds the `Token` NamedTuple of `homer.py`. -/
structure Token where
  token : List Char
  new_value : List Char
deriving DecidableEq

/-- The replacement loop of `stamp_template`, applied to the template
file's text (reading the file is the I/O boundary). -/
def stampContent (content : List Char) (tokens : List Token) : List Char :=
  tokens.foldl (fun c t => pyReplace c t.token t.new_value) content

/-- Decimal digits of `n`, embedding Python `str(n)` for naturals. -/
def natChars (n : Nat) : List Char := Nat.toDigits 10 n

/-- The recognized scheme prefixes of `Link.__init__`. -/
def schemeList : List (List Char) :=
  ["http://".data, "https://".data, "ftp://".data, "mailto:".data]

/-- `self.url.startswith(('http://', 'https://', 'ftp://', 'mailto:'))`. -/
def hasScheme (u : List Char) : Bool :=
  schemeList.any (fun p => leadsWith p u)

def httpsChars : List Char := "https://".data

/-- Embeds the `Link` class (fields after `__init__`). -/
structure Link where
  name : List Char
  url : List Char
  description : List Char
deriving DecidableEq

instance : Inhabited Link := ⟨⟨[], [], []⟩⟩

/-- Embeds `Link.__init__`: fields are stripped, and a missing scheme on a
non-empty url gets `https://` prepended. -/
def mkLink (name url description : List Char) : Link :=
  let u := pyStrip url
  { name := pyStrip name
    url := if u ≠ [] ∧ hasScheme u = false then httpsChars ++ u else u
    description := pyStrip description }

/-- Embeds the `LinkGroup` class. -/
structure LinkGroup where
  name : List Char
  description : List Char
  links : List Link
deriving DecidableEq

instance : Inhabited LinkGroup := ⟨⟨[], [], []⟩⟩

/-- Embeds `LinkGroup.__init__`. -/
def mkLinkGroup (name description : List Char) : LinkGroup :=
  { name := pyStrip name, description := pyStrip description, links := [] }

/-- Embeds the `HomerModel` class.  `current_link_group` is the index of
the group the Python reference aliases (see module docstring);
`created_at` is the formatted creation timestamp, opaque to parsing. -/
structure HomerModel where
  current_link_group : Option Nat
  link_groups : List LinkGroup
  created_at : List Char
deriving DecidableEq

/-- Embeds `HomerModel.__init__`. -/
def initModel (createdAt : List Char) : HomerModel :=
  { current_link_group := none, link_groups := [], created_at := createdAt }

/-- Replace the element at index `i` (identity when out of range). -/
def modifyAt (i : Nat) (f : LinkGroup → LinkGroup) (xs : List LinkGroup) :
    List LinkGroup :=
  match xs, i with
  | [], _ => []
  | g :: gs, 0 => f g :: gs
  | g :: gs, j + 1 => g :: modifyAt j f gs

/-- Embeds `HomerModel.add_link_group`: append a fresh group and make it
current. -/
def addLinkGroup (m : HomerModel) (name description : List Char) : HomerModel :=
  { m with
    link_groups := m.link_groups ++ [mkLinkGroup name description]
    current_link_group := some m.link_groups.length }

/-- Embeds `HomerModel.add_link`: `none` models the raised `ValueError`
when no current group exists. -/
def addLink (m : HomerModel) (name url description : List Char) : Option HomerModel :=
  match m.current_link_group with
  | none => none
  | some i =>
    some { m with
      link_groups :=
        modifyAt i (fun g => { g with links := g.links ++ [mkLink name url description] })
          m.link_groups }

/-- `sum(len(group.links) for group in self.link_groups)`. -/
def totalLinks (m : HomerModel) : Nat :=
  (m.link_groups.map (fun g => g.links.length)).sum

/-- Parser state: the model plus the reported errors (line numbers of
`Error on line …` prints) and warnings (line numbers of the
`Skipping malformed line` prints). -/
structure ParseState where
  model : HomerModel
  errors : List Nat
  warnings : List Nat
deriving DecidableEq

/-- Embeds `LinkParser.process_line`. -/
def processLine (st : ParseState) (line : List Char) (lineNumber : Nat) : ParseState :=
  let l := pyStrip line
  if l = [] ∨ l.head? = some '#' then st
  else
    let parts := (splitComma l).map pyStrip
    if parts.length = 1 then
      { st with model := addLinkGroup st.model (parts.getD 0 []) [] }
    else if 2 ≤ parts.length then
      let name := parts.getD 0 []
      let url := parts.getD 1 []
      let description := if 2 < parts.length then parts.getD 2 [] else []
      match addLink st.model name url description with
      | some m => { st with model := m }
      | none => { st with errors := st.errors ++ [lineNumber] }
    else
      { st with warnings := st.warnings ++ [lineNumber] }

/-- Embeds the loop of `LinkParser.process_file` from line number `n`. -/
def processLinesFrom (st : ParseState) (n : Nat) : List (List Char) → ParseState
  | [] => st
  | line :: rest => processLinesFrom (processLine st line n) (n + 1) rest

/-- Embeds `LinkParser.process_file` on the input file's lines
(`enumerate(file, 1)` starts numbering at 1). -/
def parseLines (createdAt : List Char) (lines : List (List Char)) : ParseState :=
  processLinesFrom ⟨initModel createdAt, [], []⟩ 1 lines

/-- Embeds `Link.to_string`, state-passing: rendered text together with
the post-call link. -/
def linkToString (linkTmpl : List Char) (l : Link) : List Char × Link :=
  (stampContent linkTmpl
    [⟨"@URL".data, l.url⟩, ⟨"@NAME".data, l.name⟩, ⟨"@DESCRIPTION".data, l.description⟩], l)

/-- Embeds `LinkGroup.to_string`, state-passing: the `links_content`
accumulation loop threads each link through `linkToString`. -/
def groupToString (linkTmpl groupTmpl : List Char) (g : LinkGroup) : List Char × LinkGroup :=
  let r := g.links.foldl
    (fun (acc : List Char × List Link) l =>
      let p := linkToString linkTmpl l
      (acc.1 ++ p.1, acc.2 ++ [p.2])) ([], [])
  (stampContent groupTmpl
    [⟨"@NAME".data, g.name⟩, ⟨"@DESCRIPTION".data, g.description⟩,
     ⟨"@LINKS".data, r.1⟩, ⟨"@LINK_COUNT".data, natChars r.2.length⟩],
   { g with links := r.2 })

/-- Embeds `HomerModel.to_string`, state-passing. -/
def modelToString (linkTmpl groupTmpl homerTmpl : List Char) (m : HomerModel) :
    List Char × HomerModel :=
  let r := m.link_groups.foldl
    (fun (acc : List Char × List LinkGroup) g =>
      let p := groupToString linkTmpl groupTmpl g
      (acc.1 ++ p.1, acc.2 ++ [p.2])) ([], [])
  let total := (r.2.map (fun g => g.links.length)).sum
  (stampContent homerTmpl
    [⟨"@LINK_GROUPS".data, r.1⟩, ⟨"@TOTAL_GROUPS".data, natChars r.2.length⟩,
     ⟨"@TOTAL_LINKS".data, natChars total⟩, ⟨"@GENERATED_DATE".data, m.created_at⟩],
   { m with link_groups := r.2 })

/-- Line classification: skipped by the blank/comment guard. -/
def isSkip (line : List Char) : Bool :=
  pyStrip line = [] || (pyStrip line).head? = some '#'

/-- Line classification: group header (exactly one comma-split field). -/
def isGroupLine (line : List Char) : Bool :=
  !isSkip line && (splitComma (pyStrip line)).length = 1

/-- Line classification: link entry (two or more comma-split fields). -/
def isLinkLine (line : List Char) : Bool :=
  !isSkip line && decide (2 ≤ (splitComma (pyStrip line)).length)

/-- A valid input file: every link line is preceded by a group line. -/
def validInput (lines : List (List Char)) : Prop :=
  ∀ i, i < lines.length → isLinkLine (lines.getD i []) = true →
    ∃ j, j < i ∧ isGroupLine (lines.getD j []) = true

/-- The comma-split, per-field-trimmed fields of a line (step 2 of
`process_line`). -/
def partsOf (line : List Char) : List (List Char) :=
  (splitComma (pyStrip line)).map pyStrip

/-- Single-character substitution as a character-wise map; `pyReplace`
with a one-character pattern agrees with it (proved below). -/
def charMap (a : Char) (v : List Char) : List Char → List Char
  | [] => []
  | c :: rest => (if c = a then v else [c]) ++ charMap a v rest

/-- The structural invariant of `HomerModel`: the current group exists iff
some group does, and it is always the last (most recently added) group. -/
def modelInv (m : HomerModel) : Prop :=
  (m.current_link_group = none ↔ m.link_groups = []) ∧
  ∀ i, m.current_link_group = some i → i + 1 = m.link_groups.length

/-- The model operations of C9: `add_link_group` and `add_link`. -/
inductive HOp where
  | addGroup (name description : List Char)
  | addLinkOp (name url description : List Char)

/-- Apply one operation; a failed `add_link` (the caught `ValueError`)
leaves the model unchanged, as in `process_line`. -/
def applyOp (m : HomerModel) : HOp → HomerModel
  | .addGroup n d => addLinkGroup m n d
  | .addLinkOp n u d => (addLink m n u d).getD m

/-- States reachable from the empty model by a sequence of operations. -/
def applyOps (createdAt : List Char) (ops : List HOp) : HomerModel :=
  ops.foldl applyOp (initModel createdAt)

/-! ### String-level lemmas -/

lemma dropWhile_dropWhile (p : Char → Bool) (s : List Char) :
    (s.dropWhile p).dropWhile p = s.dropWhile p := by
  induction s with
  | nil => rfl
  | cons c rest ih =>
    by_cases h : p c = true
    · simpa [List.dropWhile_cons, h] using ih
    · simp [List.dropWhile_cons, h]

lemma dropWhileEnd_cons (p : Char → Bool) (c : Char) (rest : List Char) :
    dropWhileEnd p (c :: rest) =
      if dropWhileEnd p rest = [] ∧ p c then [] else c :: dropWhileEnd p rest := rfl

lemma dropWhileEnd_idem (p : Char → Bool) (s : List Char) :
    dropWhileEnd p (dropWhileEnd p s) = dropWhileEnd p s := by
  induction s with
  | nil => rfl
  | cons c rest ih =>
    rw [dropWhileEnd_cons]
    by_cases h : dropWhileEnd p rest = [] ∧ p c = true
    · rw [if_pos h]; rfl
    · rw [if_neg h, dropWhileEnd_cons, ih, if_neg h]

lemma dropWhileEnd_head? (p : Char → Bool) (s : List Char)
    (h : dropWhileEnd p s ≠ []) : (dropWhileEnd p s).head? = s.head? := by
  cases s with
  | nil => rfl
  | cons c rest =>
    rw [dropWhileEnd_cons] at h ⊢
    by_cases hc : dropWhileEnd p rest = [] ∧ p c = true
    · exact absurd (if_pos hc) h
    · rw [if_neg hc]; rfl

lemma dropWhile_head_false {p : Char → Bool} {s : List Char} {c : Char} {r : List Char}
    (h : s.dropWhile p = c :: r) : p c = false := by
  induction s with
  | nil => simp at h
  | cons d rest ih =>
    rw [List.dropWhile_cons] at h
    by_cases hd : p d = true
    · rw [if_pos hd] at h; exact ih h
    · rw [if_neg hd] at h
      cases h
      exact Bool.not_eq_true _ ▸ (by simpa using hd)

lemma pyStrip_idem (s : List Char) : pyStrip (pyStrip s) = pyStrip s := by
  unfold pyStrip
  have h1 : List.dropWhile isSpaceChar (dropWhileEnd isSpaceChar (s.dropWhile isSpaceChar))
      = dropWhileEnd isSpaceChar (s.dropWhile isSpaceChar) := by
    cases hE : dropWhileEnd isSpaceChar (s.dropWhile isSpaceChar) with
    | nil => rfl
    | cons c r =>
      have hh := dropWhileEnd_head? isSpaceChar (s.dropWhile isSpaceChar) (by rw [hE]; simp)
      rw [hE] at hh
      cases ht : s.dropWhile isSpaceChar with
      | nil => rw [ht] at hh; simp at hh
      | cons d rest =>
        rw [ht] at hh
        simp only [List.head?_cons, Option.some.injEq] at hh
        have hd : isSpaceChar d = false := dropWhile_head_false ht
        rw [List.dropWhile_cons, hh, hd]
        simp
  rw [h1, dropWhileEnd_idem]

lemma dropWhile_eq_nil_of_all {p : Char → Bool} {s : List Char}
    (h : ∀ c ∈ s, p c = true) : s.dropWhile p = [] := by
  induction s with
  | nil => rfl
  | cons c rest ih =>
    rw [List.dropWhile_cons, if_pos (h c (by simp))]
    exact ih fun d hd => h d (by simp [hd])

lemma pyStrip_eq_nil_of_all_space {s : List Char}
    (h : ∀ c ∈ s, isSpaceChar c = true) : pyStrip s = [] := by
  unfold pyStrip
  rw [dropWhile_eq_nil_of_all h]
  rfl

lemma mem_of_mem_dropWhileEnd {p : Char → Bool} {s : List Char} {c : Char}
    (h : c ∈ dropWhileEnd p s) : c ∈ s := by
  induction s with
  | nil => exact absurd h (by simp [dropWhileEnd])
  | cons d rest ih =>
    rw [dropWhileEnd_cons] at h
    by_cases hd : dropWhileEnd p rest = [] ∧ p d = true
    · rw [if_pos hd] at h; simp at h
    · rw [if_neg hd] at h
      rcases List.mem_cons.mp h with h | h
      · simp [h]
      · exact List.mem_cons_of_mem _ (ih h)

lemma mem_of_mem_dropWhile {p : Char → Bool} {s : List Char} {c : Char}
    (h : c ∈ s.dropWhile p) : c ∈ s := by
  induction s with
  | nil => simp at h
  | cons d rest ih =>
    rw [List.dropWhile_cons] at h
    by_cases hd : p d = true
    · rw [if_pos hd] at h; exact List.mem_cons_of_mem _ (ih h)
    · rw [if_neg hd] at h; exact h

lemma mem_of_mem_pyStrip {s : List Char} {c : Char} (h : c ∈ pyStrip s) : c ∈ s :=
  mem_of_mem_dropWhile (mem_of_mem_dropWhileEnd h)

lemma pyStrip_head_not_space {s : List Char} {c : Char} {r : List Char}
    (h : pyStrip s = c :: r) : isSpaceChar c = false := by
  unfold pyStrip at h
  have hne : dropWhileEnd isSpaceChar (s.dropWhile isSpaceChar) ≠ [] := by
    rw [h]; simp
  have hh := dropWhileEnd_head? isSpaceChar (s.dropWhile isSpaceChar) hne
  rw [h] at hh
  cases ht : s.dropWhile isSpaceChar with
  | nil => rw [ht] at hh; simp at hh
  | cons d rest =>
    rw [ht] at hh
    simp only [List.head?_cons, Option.some.injEq] at hh
    exact hh ▸ dropWhile_head_false ht

/-! ### splitComma lemmas -/

lemma splitComma_cons (c : Char) (rest : List Char) :
    splitComma (c :: rest) =
      if c = ',' then [] :: splitComma rest
      else
        match splitComma rest with
        | [] => [[c]]
        | g :: gs => (c :: g) :: gs := rfl

lemma splitComma_ne_nil (s : List Char) : splitComma s ≠ [] := by
  induction s with
  | nil => simp [splitComma]
  | cons c rest ih =>
    rw [splitComma_cons]
    by_cases h : c = ','
    · simp [h]
    · rw [if_neg h]
      cases splitComma rest <;> simp

lemma splitComma_cons_ne (c : Char) (rest g : List Char) (gs : List (List Char))
    (h : c ≠ ',') (hs : splitComma rest = g :: gs) :
    splitComma (c :: rest) = (c :: g) :: gs := by
  rw [splitComma_cons, if_neg h, hs]

lemma splitComma_mem_chars {s t : List Char} (ht : t ∈ splitComma s) :
    ∀ c ∈ t, c ∈ s ∧ c ≠ ',' := by
  induction s generalizing t with
  | nil =>
    simp only [splitComma, List.mem_singleton] at ht
    subst ht; simp
  | cons d rest ih =>
    by_cases hd : d = ','
    · rw [splitComma_cons, if_pos hd] at ht
      rcases List.mem_cons.mp ht with h | h
      · subst h; simp
      · intro c hc
        rcases ih h c hc with ⟨h1, h2⟩
        exact ⟨List.mem_cons_of_mem _ h1, h2⟩
    · cases hs : splitComma rest with
      | nil => exact absurd hs (splitComma_ne_nil rest)
      | cons g gs =>
        rw [splitComma_cons_ne d rest g gs hd hs] at ht
        rcases List.mem_cons.mp ht with h | h
        · subst h
          intro c hc
          rcases List.mem_cons.mp hc with h | h
          · subst h; exact ⟨by simp, hd⟩
          · rcases ih (hs ▸ List.mem_cons_self g gs) c h with ⟨h1, h2⟩
            exact ⟨List.mem_cons_of_mem _ h1, h2⟩
        · intro c hc
          rcases ih (hs ▸ List.mem_cons_of_mem g h) c hc with ⟨h1, h2⟩
          exact ⟨List.mem_cons_of_mem _ h1, h2⟩

lemma splitComma_length_of_comma_mem {s : List Char} (h : ',' ∈ s) :
    2 ≤ (splitComma s).length := by
  induction s with
  | nil => simp at h
  | cons c rest ih =>
    by_cases hc : c = ','
    · rw [splitComma_cons, if_pos hc]
      have := List.length_pos.mpr (splitComma_ne_nil rest)
      simp only [List.length_cons]
      omega
    · have hr : ',' ∈ rest := by
        rcases List.mem_cons.mp h with h | h
        · exact absurd h.symm hc
        · exact h
      cases hs : splitComma rest with
      | nil => exact absurd hs (splitComma_ne_nil rest)
      | cons g gs =>
        rw [splitComma_cons_ne c rest g gs hc hs]
        have := ih hr
        rw [hs] at this
        simpa using this

/-! ### pyReplace lemmas -/

lemma leadsWith_refl (s : List Char) : leadsWith s s = true := by
  induction s with
  | nil => rfl
  | cons c rest ih => simp [leadsWith, ih]

lemma pyRepF_fuel (old new : List Char) :
    ∀ f1 s f2, s.length ≤ f1 → s.length ≤ f2 →
      pyRepF old new f1 s = pyRepF old new f2 s := by
  intro f1
  induction f1 with
  | zero =>
    intro s f2 h1 _
    have hs : s = [] := List.eq_nil_of_length_eq_zero (Nat.le_zero.mp h1)
    subst hs
    cases f2 <;> rfl
  | succ f ih =>
    intro s f2 h1 h2
    cases s with
    | nil => cases f2 <;> rfl
    | cons c rest =>
      cases f2 with
      | zero => simp at h2
      | succ f2' =>
        simp only [pyRepF]
        by_cases hm : leadsWith old (c :: rest) = true
        · rw [if_pos hm, if_pos hm]
          congr 1
          apply ih
          · calc (rest.drop (old.length - 1)).length ≤ rest.length := by
                  rw [List.length_drop]; omega
              _ ≤ f := by simpa using h1
          · calc (rest.drop (old.length - 1)).length ≤ rest.length := by
                  rw [List.length_drop]; omega
              _ ≤ f2' := by simpa using h2
        · rw [if_neg hm, if_neg hm]
          congr 1
          exact ih rest f2' (by simpa using h1) (by simpa using h2)

lemma pyReplace_nil {old : List Char} (new : List Char) (hold : old ≠ []) :
    pyReplace [] old new = [] := by
  cases old with
  | nil => exact absurd rfl hold
  | cons o os => rfl

lemma pyReplace_def_cons (o : Char) (os s new : List Char) :
    pyReplace s (o :: os) new = pyRepF (o :: os) new s.length s := rfl

lemma pyReplace_matched {old : List Char} {s : List Char} (new : List Char)
    (hold : old ≠ []) (hm : leadsWith old s = true) :
    pyReplace s old new = new ++ pyReplace (s.drop old.length) old new := by
  cases old with
  | nil => exact absurd rfl hold
  | cons o os =>
    cases s with
    | nil => simp [leadsWith] at hm
    | cons c rest =>
      show pyRepF (o :: os) new (c :: rest).length (c :: rest) = _
      simp only [List.length_cons, pyRepF, if_pos hm]
      congr 1
      rw [List.drop_succ_cons]
      have hlen : os.length + 1 - 1 = os.length := by omega
      rw [hlen, pyReplace_def_cons]
      exact pyRepF_fuel (o :: os) new rest.length (rest.drop os.length)
        (rest.drop os.length).length (by rw [List.length_drop]; omega) le_rfl

lemma pyReplace_cons_not {old : List Char} {c : Char} {rest : List Char} (new : List Char)
    (hold : old ≠ []) (hm : leadsWith old (c :: rest) = false) :
    pyReplace (c :: rest) old new = c :: pyReplace rest old new := by
  cases old with
  | nil => exact absurd rfl hold
  | cons o os =>
    show pyRepF (o :: os) new (c :: rest).length (c :: rest) = _
    simp only [List.length_cons, pyRepF, hm]
    rw [pyReplace_def_cons]
    simp

lemma pyReplace_self {old : List Char} (new : List Char) (hold : old ≠ []) :
    pyReplace old old new = new := by
  rw [pyReplace_matched new hold (leadsWith_refl old), List.drop_length,
    pyReplace_nil new hold, List.append_nil]

lemma pyReplace_single (a : Char) (v : List Char) (s : List Char) :
    pyReplace s [a] v = charMap a v s := by
  induction s with
  | nil => rw [pyReplace_nil v (by simp)]; rfl
  | cons c rest ih =>
    by_cases hc : c = a
    · have hm : leadsWith [a] (c :: rest) = true := by simp [leadsWith, hc]
      rw [pyReplace_matched v (by simp) hm]
      have : (c :: rest).drop [a].length = rest := by simp
      rw [this, ih]
      simp [charMap, hc]
    · have hm : leadsWith [a] (c :: rest) = false := by
        simp [leadsWith]
        exact fun h => absurd h.symm hc
      rw [pyReplace_cons_not v (by simp) hm, ih]
      simp [charMap, hc]

/-! ### charMap lemmas -/

lemma charMap_append (a : Char) (v s t : List Char) :
    charMap a v (s ++ t) = charMap a v s ++ charMap a v t := by
  induction s with
  | nil => rfl
  | cons c rest ih => simp [charMap, ih]

lemma charMap_of_not_mem {a : Char} {s : List Char} (v : List Char) (h : a ∉ s) :
    charMap a v s = s := by
  induction s with
  | nil => rfl
  | cons c rest ih =>
    have hc : c ≠ a := fun hca => h (by simp [hca])
    have hr : a ∉ rest := fun hm => h (by simp [hm])
    simp [charMap, hc, ih hr]

lemma charMap_cons (x : Char) (v : List Char) (c : Char) (rest : List Char) :
    charMap x v (c :: rest) = (if c = x then v else [c]) ++ charMap x v rest := rfl

lemma charMap_comm {a b : Char} {va vb : List Char}
    (hab : a ≠ b) (hbva : b ∉ va) (havb : a ∉ vb) (s : List Char) :
    charMap b vb (charMap a va s) = charMap a va (charMap b vb s) := by
  induction s with
  | nil => rfl
  | cons c rest ih =>
    rw [charMap_cons a va, charMap_cons b vb, charMap_append, charMap_append, ih]
    congr 1
    by_cases hca : c = a
    · have hcb : ¬ c = b := fun h => hab (hca ▸ h)
      rw [if_pos hca, if_neg hcb, charMap_of_not_mem vb hbva]
      simp [charMap, hca]
    · by_cases hcb : c = b
      · rw [if_neg hca, if_pos hcb, charMap_of_not_mem va havb]
        simp [charMap, hcb]
      · rw [if_neg hca, if_neg hcb]
        simp [charMap, hca, hcb]

lemma occursIn_single_not_mem {a : Char} {v : List Char}
    (h : occursIn [a] v = false) : a ∉ v := by
  induction v with
  | nil => simp
  | cons c rest ih =>
    intro hm
    have hcons : occursIn [a] (c :: rest) = (leadsWith [a] (c :: rest) || occursIn [a] rest) :=
      rfl
    rw [hcons] at h
    have hsplit := Bool.or_eq_false_iff.mp h
    rcases List.mem_cons.mp hm with hm | hm
    · subst hm
      have hlt : leadsWith [a] (a :: rest) = true := by simp [leadsWith]
      rw [hlt] at hsplit
      exact absurd hsplit.1 (by simp)
    · exact absurd hm (ih hsplit.2)

lemma stampContent_append_one (content : List Char) (ts : List Token) (t : Token) :
    stampContent content (ts ++ [t])
      = pyReplace (stampContent content ts) t.token t.new_value := by
  simp [stampContent, List.foldl_append]

/-! ### Model lemmas -/

lemma modifyAt_length (f : LinkGroup → LinkGroup) :
    ∀ (i : Nat) (xs : List LinkGroup), (modifyAt i f xs).length = xs.length := by
  intro i xs
  induction xs generalizing i with
  | nil => simp [modifyAt]
  | cons g gs ih =>
    cases i with
    | zero => simp [modifyAt]
    | succ j => simp [modifyAt, ih]

lemma modifyAt_getD_ne (f : LinkGroup → LinkGroup) (d : LinkGroup) :
    ∀ (i : Nat) (xs : List LinkGroup) (j : Nat), j ≠ i →
      (modifyAt i f xs).getD j d = xs.getD j d := by
  intro i xs
  induction xs generalizing i with
  | nil => intro j _; simp [modifyAt]
  | cons g gs ih =>
    intro j hj
    cases i with
    | zero =>
      cases j with
      | zero => exact absurd rfl hj
      | succ j' => simp [modifyAt, List.getD_cons_succ]
    | succ i' =>
      cases j with
      | zero => simp [modifyAt, List.getD_cons_zero]
      | succ j' =>
        simp only [modifyAt, List.getD_cons_succ]
        exact ih i' j' (fun h => hj (by rw [h]))

lemma modifyAt_getD_self (f : LinkGroup → LinkGroup) (d : LinkGroup) :
    ∀ (i : Nat) (xs : List LinkGroup), i < xs.length →
      (modifyAt i f xs).getD i d = f (xs.getD i d) := by
  intro i xs
  induction xs generalizing i with
  | nil => intro h; simp at h
  | cons g gs ih =>
    intro h
    cases i with
    | zero => simp [modifyAt, List.getD_cons_zero]
    | succ j =>
      simp only [modifyAt, List.getD_cons_succ]
      exact ih j (by simpa using h)

lemma sum_map_modifyAt (f : LinkGroup → LinkGroup) (gfun : LinkGroup → Nat) :
    ∀ (i : Nat) (xs : List LinkGroup), i < xs.length →
      ((modifyAt i f xs).map gfun).sum + gfun (xs.getD i default)
        = (xs.map gfun).sum + gfun (f (xs.getD i default)) := by
  intro i xs
  induction xs generalizing i with
  | nil => intro h; simp at h
  | cons x xs ih =>
    intro h
    cases i with
    | zero =>
      simp only [modifyAt, List.map_cons, List.sum_cons, List.getD_cons_zero]
      omega
    | succ j =>
      have hj : j < xs.length := by simpa using h
      simp only [modifyAt, List.map_cons, List.sum_cons, List.getD_cons_succ]
      have := ih j hj
      omega

lemma addLink_eq_none {m : HomerModel} (a u d : List Char)
    (hc : m.current_link_group = none) : addLink m a u d = none := by
  unfold addLink; rw [hc]

lemma addLink_eq_some {m : HomerModel} {i : Nat} (a u d : List Char)
    (hc : m.current_link_group = some i) :
    addLink m a u d = some { m with
      link_groups :=
        modifyAt i (fun g => { g with links := g.links ++ [mkLink a u d] }) m.link_groups } := by
  unfold addLink; rw [hc]

lemma modelInv_init (c : List Char) : modelInv (initModel c) := by
  constructor
  · simp [initModel]
  · intro i hi; simp [initModel] at hi

lemma modelInv_addLinkGroup (m : HomerModel) (a d : List Char) :
    modelInv (addLinkGroup m a d) := by
  constructor
  · simp [addLinkGroup]
  · intro i hi
    simp only [addLinkGroup, Option.some.injEq] at hi
    subst hi
    simp [addLinkGroup]

lemma modelInv_addLink {m m' : HomerModel} {a u d : List Char}
    (hinv : modelInv m) (h : addLink m a u d = some m') : modelInv m' := by
  cases hc : m.current_link_group with
  | none => rw [addLink_eq_none a u d hc] at h; simp at h
  | some i =>
    rw [addLink_eq_some a u d hc] at h
    have hme := Option.some.inj h
    have hcur : m'.current_link_group = some i := by rw [← hme]; exact hc
    have hlg : m'.link_groups.length = m.link_groups.length := by
      rw [← hme]
      exact modifyAt_length _ _ _
    have hlen : i + 1 = m.link_groups.length := hinv.2 i hc
    constructor
    · constructor
      · intro hnone; rw [hcur] at hnone; simp at hnone
      · intro hnil
        rw [hnil] at hlg
        simp at hlg
        omega
    · intro j hj
      rw [hcur] at hj
      have := Option.some.inj hj
      subst this
      rw [hlg]
      exact hlen

/-! ### processLine case analysis -/

lemma isSkip_false_iff (line : List Char) :
    isSkip line = false ↔ (pyStrip line ≠ [] ∧ (pyStrip line).head? ≠ some '#') := by
  simp [isSkip]

lemma isSkip_true_cond {line : List Char} (h : isSkip line = true) :
    pyStrip line = [] ∨ (pyStrip line).head? = some '#' := by
  simpa [isSkip] using h

lemma processLine_skip {line : List Char} (st : ParseState) (n : Nat)
    (h : isSkip line = true) : processLine st line n = st := by
  simp only [processLine]
  rw [if_pos (isSkip_true_cond h)]

lemma partsOf_eq (line : List Char) :
    (splitComma (pyStrip line)).map pyStrip = partsOf line := rfl

lemma processLine_group {line p : List Char} (st : ParseState) (n : Nat)
    (h : isSkip line = false) (hp : partsOf line = [p]) :
    processLine st line n = { st with model := addLinkGroup st.model p [] } := by
  have hcond := (isSkip_false_iff line).mp h
  simp only [processLine]
  rw [if_neg (not_or.mpr ⟨hcond.1, hcond.2⟩), partsOf_eq, hp]
  simp

lemma processLine_link {line p0 p1 : List Char} {rest : List (List Char)}
    (st : ParseState) (n : Nat)
    (h : isSkip line = false) (hp : partsOf line = p0 :: p1 :: rest) :
    processLine st line n =
      match addLink st.model p0 p1 (rest.headD []) with
      | some m => { st with model := m }
      | none => { st with errors := st.errors ++ [n] } := by
  have hcond := (isSkip_false_iff line).mp h
  simp only [processLine]
  rw [if_neg (not_or.mpr ⟨hcond.1, hcond.2⟩), partsOf_eq, hp]
  rw [if_neg (by simp : ¬ (p0 :: p1 :: rest).length = 1)]
  rw [if_pos (by simp : 2 ≤ (p0 :: p1 :: rest).length)]
  have hdesc : (if 2 < (p0 :: p1 :: rest).length then (p0 :: p1 :: rest).getD 2 [] else [])
      = rest.headD [] := by
    cases rest with
    | nil => simp
    | cons r rs => simp [List.getD_cons_succ, List.getD_cons_zero]
  rw [hdesc]
  rfl

lemma processLine_link_some {line p0 p1 : List Char} {rest : List (List Char)} {i : Nat}
    (st : ParseState) (n : Nat)
    (h : isSkip line = false) (hp : partsOf line = p0 :: p1 :: rest)
    (hc : st.model.current_link_group = some i) :
    processLine st line n = { st with model := { st.model with
      link_groups :=
        modifyAt i (fun g => { g with links := g.links ++ [mkLink p0 p1 (rest.headD [])] })
          st.model.link_groups } } := by
  rw [processLine_link st n h hp, addLink_eq_some p0 p1 (rest.headD []) hc]

lemma processLine_link_none {line p0 p1 : List Char} {rest : List (List Char)}
    (st : ParseState) (n : Nat)
    (h : isSkip line = false) (hp : partsOf line = p0 :: p1 :: rest)
    (hc : st.model.current_link_group = none) :
    processLine st line n = { st with errors := st.errors ++ [n] } := by
  rw [processLine_link st n h hp, addLink_eq_none p0 p1 (rest.headD []) hc]

/-! ### Line classification -/

lemma partsOf_ne_nil (line : List Char) : partsOf line ≠ [] := by
  intro h
  exact splitComma_ne_nil (pyStrip line) (List.map_eq_nil_iff.mp h)

lemma partsOf_length (line : List Char) :
    (partsOf line).length = (splitComma (pyStrip line)).length :=
  List.length_map _ _

lemma isGroupLine_iff (line : List Char) :
    isGroupLine line = true ↔ (isSkip line = false ∧ ∃ p, partsOf line = [p]) := by
  simp only [isGroupLine, Bool.and_eq_true, Bool.not_eq_true', decide_eq_true_eq]
  constructor
  · rintro ⟨h1, h2⟩
    refine ⟨h1, ?_⟩
    exact List.length_eq_one.mp (by rw [partsOf_length]; exact h2)
  · rintro ⟨h1, p, hp⟩
    refine ⟨h1, ?_⟩
    rw [← partsOf_length, hp]
    rfl

lemma isLinkLine_iff (line : List Char) :
    isLinkLine line = true ↔
      (isSkip line = false ∧ ∃ p0 p1 rest, partsOf line = p0 :: p1 :: rest) := by
  simp only [isLinkLine, Bool.and_eq_true, Bool.not_eq_true', decide_eq_true_eq]
  constructor
  · rintro ⟨h1, h2⟩
    refine ⟨h1, ?_⟩
    rw [← partsOf_length] at h2
    cases hp : partsOf line with
    | nil => exact absurd hp (partsOf_ne_nil line)
    | cons p0 t =>
      cases t with
      | nil => rw [hp] at h2; simp at h2
      | cons p1 rest => exact ⟨p0, p1, rest, rfl⟩
  · rintro ⟨h1, p0, p1, rest, hp⟩
    refine ⟨h1, ?_⟩
    rw [← partsOf_length, hp]
    simp

lemma line_classify (line : List Char) :
    isSkip line = true ∨ isGroupLine line = true ∨ isLinkLine line = true := by
  by_cases hs : isSkip line = true
  · exact Or.inl hs
  · have hs' : isSkip line = false := by simpa using hs
    cases hp : partsOf line with
    | nil => exact absurd hp (partsOf_ne_nil line)
    | cons p t =>
      cases t with
      | nil => exact Or.inr (Or.inl ((isGroupLine_iff line).mpr ⟨hs', p, hp⟩))
      | cons p1 rest =>
        exact Or.inr (Or.inr ((isLinkLine_iff line).mpr ⟨hs', p, p1, rest, hp⟩))

lemma isGroupLine_of_skip {line : List Char} (h : isSkip line = true) :
    isGroupLine line = false := by
  simp [isGroupLine, h]

lemma isLinkLine_of_skip {line : List Char} (h : isSkip line = true) :
    isLinkLine line = false := by
  simp [isLinkLine, h]

lemma isGroupLine_of_link {line p0 p1 : List Char} {rest : List (List Char)}
    (hp : partsOf line = p0 :: p1 :: rest) : isGroupLine line = false := by
  have hl : (splitComma (pyStrip line)).length = rest.length + 2 := by
    rw [← partsOf_length, hp]; simp
  simp [isGroupLine, hl]

lemma isLinkLine_of_group {line p : List Char}
    (hp : partsOf line = [p]) : isLinkLine line = false := by
  have hl : (splitComma (pyStrip line)).length = 1 := by
    rw [← partsOf_length, hp]; rfl
  simp [isLinkLine, hl]

/-! ### Parser step lemmas -/

lemma addLinkGroup_len (m : HomerModel) (a d : List Char) :
    (addLinkGroup m a d).link_groups.length = m.link_groups.length + 1 := by
  simp [addLinkGroup]

lemma totalLinks_addLinkGroup (m : HomerModel) (a d : List Char) :
    totalLinks (addLinkGroup m a d) = totalLinks m := by
  simp [totalLinks, addLinkGroup, mkLinkGroup]

lemma processLine_groups_len (st : ParseState) (line : List Char) (n : Nat) :
    (processLine st line n).model.link_groups.length
      = st.model.link_groups.length + (if isGroupLine line = true then 1 else 0) := by
  rcases line_classify line with hs | hg | hl
  · rw [processLine_skip st n hs,
      if_neg (by simp [isGroupLine_of_skip hs] : ¬ isGroupLine line = true)]
    omega
  · rcases (isGroupLine_iff line).mp hg with ⟨hns, p, hp⟩
    rw [processLine_group st n hns hp, if_pos hg]
    rw [addLinkGroup_len st.model p []]
  · rcases (isLinkLine_iff line).mp hl with ⟨hns, p0, p1, rest, hp⟩
    rw [if_neg (by simp [isGroupLine_of_link hp] : ¬ isGroupLine line = true)]
    cases hc : st.model.current_link_group with
    | none =>
      rw [processLine_link_none st n hns hp hc]
      show st.model.link_groups.length = st.model.link_groups.length + 0
      omega
    | some i =>
      rw [processLine_link_some st n hns hp hc]
      show (modifyAt i
          (fun g => { g with links := g.links ++ [mkLink p0 p1 (rest.headD [])] })
          st.model.link_groups).length = st.model.link_groups.length + 0
      rw [modifyAt_length]
      omega

lemma processLine_links_err (st : ParseState) (line : List Char) (n : Nat)
    (hinv : modelInv st.model) :
    totalLinks (processLine st line n).model + (processLine st line n).errors.length
      = totalLinks st.model + st.errors.length
        + (if isLinkLine line = true then 1 else 0) := by
  rcases line_classify line with hs | hg | hl
  · rw [processLine_skip st n hs,
      if_neg (by simp [isLinkLine_of_skip hs] : ¬ isLinkLine line = true)]
    omega
  · rcases (isGroupLine_iff line).mp hg with ⟨hns, p, hp⟩
    rw [processLine_group st n hns hp,
      if_neg (by simp [isLinkLine_of_group hp] : ¬ isLinkLine line = true)]
    simp [totalLinks_addLinkGroup]
  · rcases (isLinkLine_iff line).mp hl with ⟨hns, p0, p1, rest, hp⟩
    rw [if_pos hl]
    cases hc : st.model.current_link_group with
    | none =>
      rw [processLine_link_none st n hns hp hc]
      simp only [totalLinks]
      simp [List.length_append]
      omega
    | some i =>
      rw [processLine_link_some st n hns hp hc]
      have hi : i < st.model.link_groups.length := by
        have := hinv.2 i hc; omega
      have hsum := sum_map_modifyAt
        (fun g => { g with links := g.links ++ [mkLink p0 p1 (rest.headD [])] })
        (fun g => g.links.length) i st.model.link_groups hi
      simp only [List.length_append, List.length_cons, List.length_nil] at hsum
      show ((modifyAt i
            (fun g => { g with links := g.links ++ [mkLink p0 p1 (rest.headD [])] })
            st.model.link_groups).map (fun g => g.links.length)).sum + st.errors.length
          = (st.model.link_groups.map (fun g => g.links.length)).sum + st.errors.length + 1
      omega

lemma processLine_inv (st : ParseState) (line : List Char) (n : Nat)
    (hinv : modelInv st.model) : modelInv (processLine st line n).model := by
  rcases line_classify line with hs | hg | hl
  · rw [processLine_skip st n hs]; exact hinv
  · rcases (isGroupLine_iff line).mp hg with ⟨hns, p, hp⟩
    rw [processLine_group st n hns hp]
    exact modelInv_addLinkGroup st.model p []
  · rcases (isLinkLine_iff line).mp hl with ⟨hns, p0, p1, rest, hp⟩
    cases hc : st.model.current_link_group with
    | none => rw [processLine_link_none st n hns hp hc]; exact hinv
    | some i =>
      rw [processLine_link_some st n hns hp hc]
      exact modelInv_addLink hinv (addLink_eq_some p0 p1 (rest.headD []) hc)

lemma processLine_created (st : ParseState) (line : List Char) (n : Nat) :
    (processLine st line n).model.created_at = st.model.created_at := by
  rcases line_classify line with hs | hg | hl
  · rw [processLine_skip st n hs]
  · rcases (isGroupLine_iff line).mp hg with ⟨hns, p, hp⟩
    rw [processLine_group st n hns hp]
    simp [addLinkGroup]
  · rcases (isLinkLine_iff line).mp hl with ⟨hns, p0, p1, rest, hp⟩
    cases hc : st.model.current_link_group with
    | none => rw [processLine_link_none st n hns hp hc]
    | some i => rw [processLine_link_some st n hns hp hc]

lemma processLine_isSome (st : ParseState) (line : List Char) (n : Nat)
    (h : st.model.current_link_group.isSome = true) :
    (processLine st line n).model.current_link_group.isSome = true
    ∧ (processLine st line n).errors = st.errors := by
  rcases line_classify line with hs | hg | hl
  · rw [processLine_skip st n hs]; exact ⟨h, rfl⟩
  · rcases (isGroupLine_iff line).mp hg with ⟨hns, p, hp⟩
    rw [processLine_group st n hns hp]
    exact ⟨by simp [addLinkGroup], rfl⟩
  · rcases (isLinkLine_iff line).mp hl with ⟨hns, p0, p1, rest, hp⟩
    obtain ⟨i, hc⟩ := Option.isSome_iff_exists.mp h
    rw [processLine_link_some st n hns hp hc]
    exact ⟨by simp [hc], rfl⟩

lemma processLine_group_isSome (st : ParseState) (line : List Char) (n : Nat)
    (hg : isGroupLine line = true) :
    (processLine st line n).model.current_link_group.isSome = true := by
  rcases (isGroupLine_iff line).mp hg with ⟨hns, p, hp⟩
  rw [processLine_group st n hns hp]
  simp [addLinkGroup]

lemma processLinesFrom_cons (st : ParseState) (n : Nat) (line : List Char)
    (rest : List (List Char)) :
    processLinesFrom st n (line :: rest)
      = processLinesFrom (processLine st line n) (n + 1) rest := rfl

lemma processLinesFrom_spec :
    ∀ (lines : List (List Char)) (st : ParseState) (n : Nat), modelInv st.model →
      modelInv (processLinesFrom st n lines).model
      ∧ (processLinesFrom st n lines).model.link_groups.length
          = st.model.link_groups.length + lines.countP isGroupLine
      ∧ totalLinks (processLinesFrom st n lines).model
            + (processLinesFrom st n lines).errors.length
          = totalLinks st.model + st.errors.length + lines.countP isLinkLine := by
  intro lines
  induction lines with
  | nil => intro st n h; simp [processLinesFrom, h]
  | cons line rest ih =>
    intro st n h
    have hstep := processLine_inv st line n h
    obtain ⟨ih1, ih2, ih3⟩ := ih (processLine st line n) (n + 1) hstep
    rw [processLinesFrom_cons]
    refine ⟨ih1, ?_, ?_⟩
    · rw [ih2, processLine_groups_len, List.countP_cons]
      omega
    · rw [ih3, processLine_links_err st line n h, List.countP_cons]
      omega

lemma processLinesFrom_created :
    ∀ (lines : List (List Char)) (st : ParseState) (n : Nat),
      (processLinesFrom st n lines).model.created_at = st.model.created_at := by
  intro lines
  induction lines with
  | nil => intro st n; rfl
  | cons line rest ih =>
    intro st n
    rw [processLinesFrom_cons, ih, processLine_created]

lemma processLinesFrom_errors :
    ∀ (lines : List (List Char)) (st : ParseState) (n : Nat),
      (∀ i, i < lines.length → isLinkLine (lines.getD i []) = true →
        (∃ j, j < i ∧ isGroupLine (lines.getD j []) = true)
          ∨ st.model.current_link_group.isSome = true) →
      (processLinesFrom st n lines).errors = st.errors := by
  intro lines
  induction lines with
  | nil => intro st n _; rfl
  | cons line rest ih =>
    intro st n h
    rw [processLinesFrom_cons]
    rcases line_classify line with hs | hg | hl
    · rw [processLine_skip st n hs]
      apply ih
      intro i hi hlink
      rcases h (i + 1) (by simpa using hi) (by simpa using hlink) with ⟨j, hj, hgj⟩ | hsome
      · cases j with
        | zero =>
          rw [List.getD_cons_zero] at hgj
          exact absurd hgj (by simp [isGroupLine_of_skip hs])
        | succ j' =>
          exact Or.inl ⟨j', by omega, by simpa using hgj⟩
      · exact Or.inr hsome
    · have h2 := processLine_group_isSome st line n hg
      have h3 : (processLine st line n).errors = st.errors := by
        rcases (isGroupLine_iff line).mp hg with ⟨hns, p, hp⟩
        rw [processLine_group st n hns hp]
      rw [← h3]
      exact ih _ _ (fun i hi hlink => Or.inr h2)
    · have h0 := h 0 (by simp) (by simpa using hl)
      have hsome : st.model.current_link_group.isSome = true := by
        rcases h0 with ⟨j, hj, _⟩ | hsome
        · omega
        · exact hsome
      have hstep := processLine_isSome st line n hsome
      rw [← hstep.2]
      exact ih _ _ (fun i hi hlink => Or.inr hstep.1)

/-! ### Render lemmas -/

lemma linkFold_snd (lt : List Char) (ls : List Link) :
    ∀ (s0 : List Char) (acc : List Link),
      (ls.foldl (fun (acc : List Char × List Link) l =>
        let p := linkToString lt l
        (acc.1 ++ p.1, acc.2 ++ [p.2])) (s0, acc)).2 = acc ++ ls := by
  induction ls with
  | nil => intro s0 acc; simp
  | cons l ls ih =>
    intro s0 acc
    rw [List.foldl_cons]
    show (List.foldl _ (s0 ++ (linkToString lt l).1, acc ++ [l]) ls).2 = acc ++ l :: ls
    rw [ih]
    simp

lemma groupToString_snd (lt gt : List Char) (g : LinkGroup) :
    (groupToString lt gt g).2 = g := by
  show ({ g with links := (g.links.foldl (fun (acc : List Char × List Link) l =>
      let p := linkToString lt l
      (acc.1 ++ p.1, acc.2 ++ [p.2])) ([], [])).2 } : LinkGroup) = g
  rw [linkFold_snd, List.nil_append]

lemma groupFold_snd (lt gt : List Char) (gs : List LinkGroup) :
    ∀ (s0 : List Char) (acc : List LinkGroup),
      (gs.foldl (fun (acc : List Char × List LinkGroup) g =>
        let p := groupToString lt gt g
        (acc.1 ++ p.1, acc.2 ++ [p.2])) (s0, acc)).2 = acc ++ gs := by
  induction gs with
  | nil => intro s0 acc; simp
  | cons g gs ih =>
    intro s0 acc
    rw [List.foldl_cons]
    show (List.foldl _ (s0 ++ (groupToString lt gt g).1, acc ++ [(groupToString lt gt g).2])
        gs).2 = acc ++ g :: gs
    rw [groupToString_snd, ih]
    simp

lemma modelToString_snd (lt gt ht : List Char) (m : HomerModel) :
    (modelToString lt gt ht m).2 = m := by
  show ({ m with link_groups := (m.link_groups.foldl
      (fun (acc : List Char × List LinkGroup) g =>
        let p := groupToString lt gt g
        (acc.1 ++ p.1, acc.2 ++ [p.2])) ([], [])).2 } : HomerModel) = m
  rw [groupFold_snd, List.nil_append]

lemma groupToString_fst (lt gt : List Char) (g : LinkGroup) :
    (groupToString lt gt g).1
      = stampContent gt
          [⟨"@NAME".data, g.name⟩, ⟨"@DESCRIPTION".data, g.description⟩,
           ⟨"@LINKS".data, (g.links.foldl (fun (acc : List Char × List Link) l =>
              let p := linkToString lt l
              (acc.1 ++ p.1, acc.2 ++ [p.2])) ([], [])).1⟩,
           ⟨"@LINK_COUNT".data, natChars g.links.length⟩] := by
  have h2 : (g.links.foldl (fun (acc : List Char × List Link) l =>
      let p := linkToString lt l
      (acc.1 ++ p.1, acc.2 ++ [p.2])) ([], [])).2 = g.links := by
    rw [linkFold_snd]
    exact List.nil_append _
  show stampContent gt
      [⟨"@NAME".data, g.name⟩, ⟨"@DESCRIPTION".data, g.description⟩,
       ⟨"@LINKS".data, (g.links.foldl (fun (acc : List Char × List Link) l =>
          let p := linkToString lt l
          (acc.1 ++ p.1, acc.2 ++ [p.2])) ([], [])).1⟩,
       ⟨"@LINK_COUNT".data, natChars (g.links.foldl (fun (acc : List Char × List Link) l =>
          let p := linkToString lt l
          (acc.1 ++ p.1, acc.2 ++ [p.2])) ([], [])).2.length⟩] = _
  rw [h2]

lemma modelToString_fst (lt gt ht : List Char) (m : HomerModel) :
    (modelToString lt gt ht m).1
      = stampContent ht
          [⟨"@LINK_GROUPS".data, (m.link_groups.foldl
              (fun (acc : List Char × List LinkGroup) g =>
                let p := groupToString lt gt g
                (acc.1 ++ p.1, acc.2 ++ [p.2])) ([], [])).1⟩,
           ⟨"@TOTAL_GROUPS".data, natChars m.link_groups.length⟩,
           ⟨"@TOTAL_LINKS".data, natChars (totalLinks m)⟩,
           ⟨"@GENERATED_DATE".data, m.created_at⟩] := by
  have h2 : (m.link_groups.foldl (fun (acc : List Char × List LinkGroup) g =>
      let p := groupToString lt gt g
      (acc.1 ++ p.1, acc.2 ++ [p.2])) ([], [])).2 = m.link_groups := by
    rw [groupFold_snd]
    exact List.nil_append _
  show stampContent ht
      [⟨"@LINK_GROUPS".data, (m.link_groups.foldl
          (fun (acc : List Char × List LinkGroup) g =>
            let p := groupToString lt gt g
            (acc.1 ++ p.1, acc.2 ++ [p.2])) ([], [])).1⟩,
       ⟨"@TOTAL_GROUPS".data, natChars (m.link_groups.foldl
          (fun (acc : List Char × List LinkGroup) g =>
            let p := groupToString lt gt g
            (acc.1 ++ p.1, acc.2 ++ [p.2])) ([], [])).2.length⟩,
       ⟨"@TOTAL_LINKS".data, natChars (((m.link_groups.foldl
          (fun (acc : List Char × List LinkGroup) g =>
            let p := groupToString lt gt g
            (acc.1 ++ p.1, acc.2 ++ [p.2])) ([], [])).2.map (fun g => g.links.length)).sum)⟩,
       ⟨"@GENERATED_DATE".data, m.created_at⟩] = _
  rw [h2]
  rfl

lemma modelToString_created (lt gt ht : List Char) (m : HomerModel) (d : List Char) :
    (modelToString lt gt ht { m with created_at := d }).1
      = pyReplace (stampContent ht
          [⟨"@LINK_GROUPS".data, (m.link_groups.foldl
              (fun (acc : List Char × List LinkGroup) g =>
                let p := groupToString lt gt g
                (acc.1 ++ p.1, acc.2 ++ [p.2])) ([], [])).1⟩,
           ⟨"@TOTAL_GROUPS".data, natChars m.link_groups.length⟩,
           ⟨"@TOTAL_LINKS".data, natChars (totalLinks m)⟩])
          "@GENERATED_DATE".data d := by
  have h2 : (m.link_groups.foldl (fun (acc : List Char × List LinkGroup) g =>
      let p := groupToString lt gt g
      (acc.1 ++ p.1, acc.2 ++ [p.2])) ([], [])).2 = m.link_groups := by
    rw [groupFold_snd]
    exact List.nil_append _
  show stampContent ht
      ([⟨"@LINK_GROUPS".data, (m.link_groups.foldl
          (fun (acc : List Char × List LinkGroup) g =>
            let p := groupToString lt gt g
            (acc.1 ++ p.1, acc.2 ++ [p.2])) ([], [])).1⟩,
        ⟨"@TOTAL_GROUPS".data, natChars (m.link_groups.foldl
          (fun (acc : List Char × List LinkGroup) g =>
            let p := groupToString lt gt g
            (acc.1 ++ p.1, acc.2 ++ [p.2])) ([], [])).2.length⟩,
        ⟨"@TOTAL_LINKS".data, natChars (((m.link_groups.foldl
          (fun (acc : List Char × List LinkGroup) g =>
            let p := groupToString lt gt g
            (acc.1 ++ p.1, acc.2 ++ [p.2])) ([], [])).2.map (fun g => g.links.length)).sum)⟩]
       ++ [⟨"@GENERATED_DATE".data, d⟩]) = _
  rw [stampContent_append_one, h2]
  rfl

/-! ### Operation-sequence lemmas -/

lemma applyOp_addGroup (m : HomerModel) (a d : List Char) :
    applyOp m (HOp.addGroup a d) = addLinkGroup m a d := rfl

lemma applyOp_addLink_none (m : HomerModel) (a u d : List Char)
    (hc : m.current_link_group = none) :
    applyOp m (HOp.addLinkOp a u d) = m := by
  show (addLink m a u d).getD m = m
  rw [addLink_eq_none a u d hc]
  rfl

lemma applyOp_addLink_some (m : HomerModel) (a u d : List Char) (i : Nat)
    (hc : m.current_link_group = some i) :
    applyOp m (HOp.addLinkOp a u d) = { m with
      link_groups :=
        modifyAt i (fun g => { g with links := g.links ++ [mkLink a u d] })
          m.link_groups } := by
  show (addLink m a u d).getD m = _
  rw [addLink_eq_some a u d hc]
  rfl

lemma applyOp_inv (m : HomerModel) (op : HOp) (h : modelInv m) :
    modelInv (applyOp m op) := by
  cases op with
  | addGroup a d => exact modelInv_addLinkGroup m a d
  | addLinkOp a u d =>
    cases hc : m.current_link_group with
    | none => rw [applyOp_addLink_none m a u d hc]; exact h
    | some i =>
      rw [applyOp_addLink_some m a u d i hc]
      exact modelInv_addLink h (addLink_eq_some a u d hc)

lemma applyOps_inv (c : List Char) (ops : List HOp) : modelInv (applyOps c ops) := by
  suffices h : ∀ (ops : List HOp) (m : HomerModel), modelInv m →
      modelInv (ops.foldl applyOp m) from h ops _ (modelInv_init c)
  intro ops
  induction ops with
  | nil => intro m h; exact h
  | cons op rest ih => intro m h; exact ih _ (applyOp_inv m op h)

lemma applyOp_preserve (m : HomerModel) (op : HOp) :
    m.link_groups.length ≤ (applyOp m op).link_groups.length
    ∧ ∀ j, j < m.link_groups.length →
        ((applyOp m op).link_groups.getD j default).name
            = (m.link_groups.getD j default).name
        ∧ ((applyOp m op).link_groups.getD j default).description
            = (m.link_groups.getD j default).description
        ∧ ∃ ext, ((applyOp m op).link_groups.getD j default).links
            = (m.link_groups.getD j default).links ++ ext := by
  cases op with
  | addGroup a d =>
    rw [applyOp_addGroup]
    constructor
    · simp [addLinkGroup]
    · intro j hj
      have hg : (addLinkGroup m a d).link_groups.getD j default
          = m.link_groups.getD j default := by
        show (m.link_groups ++ [mkLinkGroup a d]).getD j default = _
        exact List.getD_append _ _ _ _ hj
      rw [hg]
      exact ⟨rfl, rfl, [], by simp⟩
  | addLinkOp a u d =>
    cases hc : m.current_link_group with
    | none =>
      rw [applyOp_addLink_none m a u d hc]
      exact ⟨le_rfl, fun j hj => ⟨rfl, rfl, [], by simp⟩⟩
    | some i =>
      rw [applyOp_addLink_some m a u d i hc]
      constructor
      · exact le_of_eq (modifyAt_length _ _ _).symm
      · intro j hj
        by_cases hji : j = i
        · subst hji
          have hself := modifyAt_getD_self
            (fun g => { g with links := g.links ++ [mkLink a u d] }) default j
            m.link_groups hj
          show ((modifyAt j (fun g => { g with links := g.links ++ [mkLink a u d] })
              m.link_groups).getD j default).name = _ ∧ _
          rw [hself]
          exact ⟨rfl, rfl, [mkLink a u d], rfl⟩
        · have hne := modifyAt_getD_ne
            (fun g => { g with links := g.links ++ [mkLink a u d] }) default i
            m.link_groups j hji
          show ((modifyAt i (fun g => { g with links := g.links ++ [mkLink a u d] })
              m.link_groups).getD j default).name = _ ∧ _
          rw [hne]
          exact ⟨rfl, rfl, [], by simp⟩

/-! ### Claim theorems -/

/-- C1: for a line that strips to non-empty text not starting with `#`,
`process_line` with exactly one comma-split trimmed field appends a brand
new group with that field as name and empty description (never merging
with an existing group of the same name) and makes it the current group;
with two or more fields it appends, to the current group, a link built
from field 0 (name), field 1 (url) and field 2 when present
(description), ignoring any further fields, leaving current group and
errors unchanged. -/
theorem c1_line_classification (st : ParseState) (line : List Char) (n : Nat)
    (h1 : pyStrip line ≠ []) (h2 : (pyStrip line).head? ≠ some '#') :
    (∀ p, partsOf line = [p] →
      (processLine st line n).model.link_groups
          = st.model.link_groups ++ [{ name := p, description := [], links := [] }]
        ∧ (processLine st line n).model.current_link_group
            = some st.model.link_groups.length
        ∧ (processLine st line n).errors = st.errors)
    ∧ (∀ p0 p1 rest, partsOf line = p0 :: p1 :: rest →
        ∀ i, st.model.current_link_group = some i →
          (processLine st line n).model.link_groups
            = modifyAt i
                (fun g => { g with links := g.links ++ [mkLink p0 p1 (rest.headD [])] })
                st.model.link_groups
          ∧ (processLine st line n).model.current_link_group
              = st.model.current_link_group
          ∧ (processLine st line n).errors = st.errors) := by
  have hns : isSkip line = false := (isSkip_false_iff line).mpr ⟨h1, h2⟩
  constructor
  · intro p hp
    rw [processLine_group st n hns hp]
    refine ⟨?_, rfl, rfl⟩
    show st.model.link_groups ++ [mkLinkGroup p []] = _
    obtain ⟨q, hq⟩ : ∃ q, p = pyStrip q := by
      have hmem : p ∈ partsOf line := by rw [hp]; simp
      obtain ⟨t, _, hpt⟩ := List.mem_map.mp hmem
      exact ⟨t, hpt.symm⟩
    have hmkg : mkLinkGroup p [] = { name := p, description := [], links := [] } := by
      unfold mkLinkGroup
      rw [hq, pyStrip_idem]
      rfl
    rw [hmkg]
  · intro p0 p1 rest hp i hi
    rw [processLine_link_some st n hns hp hi]
    exact ⟨rfl, rfl, rfl⟩

theorem c1_witness :
    (processLine ⟨initModel [], [], []⟩ "Dev".data 1).model.link_groups
      = [] ++ [{ name := "Dev".data, description := [], links := [] }] :=
  ((c1_line_classification ⟨initModel [], [], []⟩ "Dev".data 1
    (by decide) (by decide)).1 "Dev".data (by decide)).1

/-- C2 counterexample: the empty url string strips to `[]`, which starts
with none of the four scheme prefixes, yet the constructed `Link` keeps
the empty url instead of getting `https://` prepended (the code guards
on `self.url` being truthy). -/
theorem c2_url_counterexample :
    hasScheme (pyStrip ([] : List Char)) = false
    ∧ (mkLink ['x'] [] []).url ≠ httpsChars ++ pyStrip ([] : List Char) := by
  decide

/-- C2 amended: after trimming, a NON-EMPTY url lacking all four scheme
prefixes gets `https://` prepended; a url already carrying one of the
prefixes is stored unchanged; an empty (or all-whitespace) url is stored
as the empty string without the prefix. -/
theorem c2_url_amended (name url description : List Char) :
    (pyStrip url ≠ [] → hasScheme (pyStrip url) = false →
      (mkLink name url description).url = httpsChars ++ pyStrip url)
    ∧ (hasScheme (pyStrip url) = true → (mkLink name url description).url = pyStrip url)
    ∧ (pyStrip url = [] → (mkLink name url description).url = []) := by
  refine ⟨?_, ?_, ?_⟩
  · intro hne hsch
    show (if pyStrip url ≠ [] ∧ hasScheme (pyStrip url) = false
        then httpsChars ++ pyStrip url else pyStrip url) = _
    rw [if_pos ⟨hne, hsch⟩]
  · intro hsch
    show (if pyStrip url ≠ [] ∧ hasScheme (pyStrip url) = false
        then httpsChars ++ pyStrip url else pyStrip url) = _
    rw [if_neg (by simp [hsch])]
  · intro hnil
    show (if pyStrip url ≠ [] ∧ hasScheme (pyStrip url) = false
        then httpsChars ++ pyStrip url else pyStrip url) = _
    rw [if_neg (by simp [hnil]), hnil]

theorem c2_url_witness :
    (mkLink "GitHub".data " github.com".data []).url
      = httpsChars ++ pyStrip " github.com".data :=
  (c2_url_amended "GitHub".data " github.com".data []).1 (by decide) (by decide)

/-- C3: a link-entry line processed while the current group is `none`
turns into exactly one reported error carrying the line number, with the
model untouched, and processing continues with the next line; the
single-line input `"GitHub, github.com"` yields zero groups, zero links
and the single error `[1]`. -/
theorem c3_missing_group (st : ParseState) (line : List Char) (n : Nat)
    (h1 : isSkip line = false) (h2 : 2 ≤ (partsOf line).length)
    (h3 : st.model.current_link_group = none) :
    processLine st line n = { st with errors := st.errors ++ [n] }
    ∧ (∀ rest, processLinesFrom st n (line :: rest)
        = processLinesFrom { st with errors := st.errors ++ [n] } (n + 1) rest)
    ∧ (parseLines [] ["GitHub, github.com".data]).model.link_groups = []
    ∧ totalLinks (parseLines [] ["GitHub, github.com".data]).model = 0
    ∧ (parseLines [] ["GitHub, github.com".data]).errors = [1] := by
  obtain ⟨p0, p1, rest, hp⟩ : ∃ p0 p1 rest, partsOf line = p0 :: p1 :: rest := by
    cases hp : partsOf line with
    | nil => exact absurd hp (partsOf_ne_nil line)
    | cons a t =>
      cases t with
      | nil => rw [hp] at h2; simp at h2
      | cons b r => exact ⟨a, b, r, rfl⟩
  have hmain := processLine_link_none st n h1 hp h3
  refine ⟨hmain, ?_, by decide, by decide, by decide⟩
  intro rest2
  rw [processLinesFrom_cons, hmain]

theorem c3_witness :
    processLine ⟨initModel [], [], []⟩ "GitHub, github.com".data 1
      = { model := initModel [], errors := [] ++ [1], warnings := [] } :=
  (c3_missing_group ⟨initModel [], [], []⟩ "GitHub, github.com".data 1
    (by decide) (by decide) (by decide)).1

/-- C8: the malformed-line branch is unreachable: a comma split never
yields zero fields, every surviving line is a skip, a group header or a
link entry, and `process_line` never extends the malformed-line warning
list. -/
theorem c8_malformed_unreachable :
    (∀ s, splitComma s ≠ [])
    ∧ (∀ line, isSkip line = true ∨ isGroupLine line = true ∨ isLinkLine line = true)
    ∧ (∀ (st : ParseState) (line : List Char) (n : Nat),
        (processLine st line n).warnings = st.warnings) := by
  refine ⟨splitComma_ne_nil, line_classify, ?_⟩
  intro st line n
  rcases line_classify line with hs | hg | hl
  · rw [processLine_skip st n hs]
  · rcases (isGroupLine_iff line).mp hg with ⟨hns, p, hp⟩
    rw [processLine_group st n hns hp]
  · rcases (isLinkLine_iff line).mp hl with ⟨hns, p0, p1, rest, hp⟩
    cases hc : st.model.current_link_group with
    | none => rw [processLine_link_none st n hns hp hc]
    | some i => rw [processLine_link_some st n hns hp hc]

/-- C10: a line consisting only of commas and whitespace (and stripping
to something non-empty) is classified as a link entry whose trimmed
fields are all empty; when a current group exists the parser appends the
link `⟨"", "", ""⟩` without reporting any error, and the empty url is
stored as the empty string, not prefixed with `https://`. -/
theorem c10_comma_only_line (line : List Char)
    (h1 : ∀ c ∈ line, c = ',' ∨ isSpaceChar c = true)
    (h2 : pyStrip line ≠ []) :
    isLinkLine line = true
    ∧ (∀ p ∈ partsOf line, p = [])
    ∧ mkLink [] [] [] = { name := [], url := [], description := [] }
    ∧ (∀ (st : ParseState) (n i : Nat), st.model.current_link_group = some i →
        processLine st line n
          = { st with model := { st.model with
              link_groups := modifyAt i
                (fun g => { g with links :=
                    g.links ++ [{ name := [], url := [], description := [] }] })
                st.model.link_groups } }) := by
  obtain ⟨c, r, hps⟩ : ∃ c r, pyStrip line = c :: r := by
    cases hps : pyStrip line with
    | nil => exact absurd hps h2
    | cons c r => exact ⟨c, r, rfl⟩
  have hcs : isSpaceChar c = false := pyStrip_head_not_space hps
  have hcm : c ∈ line := mem_of_mem_pyStrip (by rw [hps]; simp)
  have hcomma : c = ',' := by
    rcases h1 c hcm with h | h
    · exact h
    · rw [h] at hcs; simp at hcs
  have hmem : ',' ∈ pyStrip line := by rw [hps, hcomma]; simp
  have hlen2 : 2 ≤ (splitComma (pyStrip line)).length := splitComma_length_of_comma_mem hmem
  have hns : isSkip line = false := by
    refine (isSkip_false_iff line).mpr ⟨h2, ?_⟩
    rw [hps, hcomma]
    simp
  have hall : ∀ p ∈ partsOf line, p = [] := by
    intro p hpm
    obtain ⟨t, ht, hpt⟩ := List.mem_map.mp hpm
    have hch : ∀ ch ∈ t, isSpaceChar ch = true := by
      intro ch hcht
      rcases splitComma_mem_chars ht ch hcht with ⟨hin, hne⟩
      rcases h1 ch (mem_of_mem_pyStrip hin) with h | h
      · exact absurd h hne
      · exact h
    rw [← hpt]
    exact pyStrip_eq_nil_of_all_space hch
  have hlink : isLinkLine line = true := by
    simp [isLinkLine, hns, hlen2]
  obtain ⟨p0, p1, rest, hp⟩ : ∃ p0 p1 rest, partsOf line = p0 :: p1 :: rest := by
    have h2' : 2 ≤ (partsOf line).length := by rw [partsOf_length]; exact hlen2
    cases hp : partsOf line with
    | nil => exact absurd hp (partsOf_ne_nil line)
    | cons a t =>
      cases t with
      | nil => rw [hp] at h2'; simp at h2'
      | cons b rr => exact ⟨a, b, rr, rfl⟩
  have hp0 : p0 = [] := hall p0 (by rw [hp]; simp)
  have hp1 : p1 = [] := hall p1 (by rw [hp]; simp)
  have hrest : rest.headD [] = [] := by
    cases rest with
    | nil => rfl
    | cons rr rs =>
      have hrr : rr = [] := hall rr (by rw [hp]; simp)
      simp [hrr]
  refine ⟨hlink, hall, by decide, ?_⟩
  intro st n i hi
  have hstep := processLine_link_some st n hns hp hi
  rw [hp0, hp1, hrest] at hstep
  rw [hstep]
  have hmk : mkLink [] [] [] = { name := [], url := [], description := [] } := by decide
  rw [hmk]

theorem c10_witness : isLinkLine [','] = true :=
  (c10_comma_only_line [','] (by decide) (by decide)).1

/-- C4: for a valid input (every link line preceded by some group
header), parsing yields exactly one group per group-header line and one
link per link line in total, and rendering stamps `@TOTAL_GROUPS`,
`@TOTAL_LINKS` and each group's `@LINK_COUNT` with the decimal strings
of those counts. -/
theorem c4_counts_and_render (created lt gt ht : List Char) (lines : List (List Char))
    (hv : validInput lines) :
    (parseLines created lines).model.link_groups.length = lines.countP isGroupLine
    ∧ totalLinks (parseLines created lines).model = lines.countP isLinkLine
    ∧ (∃ gc, (modelToString lt gt ht (parseLines created lines).model).1
        = stampContent ht
            [⟨"@LINK_GROUPS".data, gc⟩,
             ⟨"@TOTAL_GROUPS".data, natChars (lines.countP isGroupLine)⟩,
             ⟨"@TOTAL_LINKS".data, natChars (lines.countP isLinkLine)⟩,
             ⟨"@GENERATED_DATE".data, created⟩])
    ∧ (∀ g ∈ (parseLines created lines).model.link_groups, ∃ lc,
        (groupToString lt gt g).1
          = stampContent gt
              [⟨"@NAME".data, g.name⟩, ⟨"@DESCRIPTION".data, g.description⟩,
               ⟨"@LINKS".data, lc⟩, ⟨"@LINK_COUNT".data, natChars g.links.length⟩]) := by
  have hspec := processLinesFrom_spec lines ⟨initModel created, [], []⟩ 1
    (modelInv_init created)
  have herr : (parseLines created lines).errors = [] :=
    processLinesFrom_errors lines ⟨initModel created, [], []⟩ 1
      (fun i hi hlink => Or.inl (hv i hi hlink))
  have hgroups : (parseLines created lines).model.link_groups.length
      = lines.countP isGroupLine := by
    have h2 := hspec.2.1
    have hz : (⟨initModel created, [], []⟩ : ParseState).model.link_groups.length = 0 := rfl
    rw [hz] at h2
    show (processLinesFrom ⟨initModel created, [], []⟩ 1 lines).model.link_groups.length
        = lines.countP isGroupLine
    omega
  have hlinks : totalLinks (parseLines created lines).model = lines.countP isLinkLine := by
    have h3 := hspec.2.2
    have h4 : (processLinesFrom ⟨initModel created, [], []⟩ 1 lines).errors.length = 0 := by
      rw [show (processLinesFrom ⟨initModel created, [], []⟩ 1 lines).errors
          = (parseLines created lines).errors from rfl, herr]
      rfl
    have h5 : totalLinks (⟨initModel created, [], []⟩ : ParseState).model = 0 := rfl
    have h6 : (⟨initModel created, [], []⟩ : ParseState).errors.length = 0 := rfl
    rw [h5, h6] at h3
    show totalLinks (processLinesFrom ⟨initModel created, [], []⟩ 1 lines).model
        = lines.countP isLinkLine
    omega
  have hcreated : (parseLines created lines).model.created_at = created :=
    processLinesFrom_created lines ⟨initModel created, [], []⟩ 1
  refine ⟨hgroups, hlinks, ?_, ?_⟩
  · have hfst := modelToString_fst lt gt ht (parseLines created lines).model
    rw [hgroups, hlinks, hcreated] at hfst
    exact ⟨_, hfst⟩
  · intro g _
    exact ⟨_, groupToString_fst lt gt g⟩

theorem c4_witness :
    (parseLines [] ["A".data, "B, c".data]).model.link_groups.length
      = (["A".data, "B, c".data]).countP isGroupLine :=
  (c4_counts_and_render [] [] [] [] ["A".data, "B, c".data] (by
    intro i hi hlink
    match i with
    | 0 => exact absurd hlink (by decide)
    | 1 => exact ⟨0, by omega, by decide⟩
    | n + 2 =>
      exact absurd hi (by simp only [List.length_cons, List.length_nil]; omega))).1

/-- C5 counterexample: stamping the template `"@A"` with the pairs
`[(@A, "@B"), (@B, "x")]` yields `"x"`, not `"@B"`: the `@B` that arrived
inside the first pair's substituted value IS replaced by the later
pair's substitution, contradicting the claim that it must not be. -/
theorem c5_stamp_counterexample :
    stampContent "@A".data [⟨"@A".data, "@B".data⟩, ⟨"@B".data, ['x']⟩] = ['x']
    ∧ stampContent "@A".data [⟨"@A".data, "@B".data⟩, ⟨"@B".data, ['x']⟩] ≠ "@B".data := by
  decide

/-- C5 amended: stamping applies the pairs sequentially in the caller's
listed order — each pair is applied once, to the text produced by all
earlier pairs — so a later pair's value is never re-scanned for earlier
pairs' tokens, but a token occurring inside a previously substituted
replacement value IS replaced by a later pair's substitution: stamping a
text equal to `t1`'s token with `[t1, t2]` where `t1`'s value is exactly
`t2`'s token yields `t2`'s value. -/
theorem c5_stamp_amended (t1 t2 : Token)
    (h1 : t1.token ≠ []) (h2 : t2.token ≠ []) (h3 : t1.new_value = t2.token) :
    stampContent t1.token [t1, t2] = t2.new_value
    ∧ ∀ (content : List Char) (ts : List Token) (t : Token),
        stampContent content (ts ++ [t])
          = pyReplace (stampContent content ts) t.token t.new_value := by
  constructor
  · show pyReplace (pyReplace t1.token t1.token t1.new_value) t2.token t2.new_value = _
    rw [pyReplace_self _ h1, h3, pyReplace_self _ h2]
  · exact stampContent_append_one

theorem c5_stamp_witness :
    stampContent "@A".data [⟨"@A".data, "@B".data⟩, ⟨"@B".data, ['x']⟩] = ['x'] :=
  (c5_stamp_amended ⟨"@A".data, "@B".data⟩ ⟨"@B".data, ['x']⟩
    (by decide) (by decide) (by decide)).1

/-- C6 counterexample: tokens `"ab"` and `"bc"` satisfy every
non-overlap condition of the claim (neither occurs in the other token
nor in either replacement value), yet stamping `"abc"` with the two
pairs in the two orders yields different texts, because occurrences of
the two tokens overlap inside the template and a replacement can create
a new occurrence at a junction. -/
theorem c6_commute_counterexample :
    occursIn "ab".data "bc".data = false ∧ occursIn "bc".data "ab".data = false
    ∧ occursIn "ab".data "xb".data = false ∧ occursIn "ab".data ['y'] = false
    ∧ occursIn "bc".data "xb".data = false ∧ occursIn "bc".data ['y'] = false
    ∧ stampContent "abc".data [⟨"ab".data, "xb".data⟩, ⟨"bc".data, ['y']⟩]
        ≠ stampContent "abc".data [⟨"bc".data, ['y']⟩, ⟨"ab".data, "xb".data⟩] := by
  decide

/-- C6 amended: for two pairs whose tokens are distinct single
characters, with neither token occurring in the other token or in either
replacement value (so occurrences can never overlap and junctions can
never create one), stamping in either order yields the same text. -/
theorem c6_commute_amended (a b : Char) (va vb s : List Char)
    (hab : occursIn [a] [b] = false) (_hba : occursIn [b] [a] = false)
    (_h1 : occursIn [a] va = false) (h2 : occursIn [a] vb = false)
    (h3 : occursIn [b] va = false) (_h4 : occursIn [b] vb = false) :
    stampContent s [⟨[a], va⟩, ⟨[b], vb⟩] = stampContent s [⟨[b], vb⟩, ⟨[a], va⟩] := by
  have hne : a ≠ b := by
    intro h
    subst h
    exact absurd (by simp : a ∈ [a]) (occursIn_single_not_mem hab)
  show pyReplace (pyReplace s [a] va) [b] vb = pyReplace (pyReplace s [b] vb) [a] va
  rw [pyReplace_single, pyReplace_single, pyReplace_single, pyReplace_single]
  exact charMap_comm hne (occursIn_single_not_mem h3) (occursIn_single_not_mem h2) s

theorem c6_commute_witness :
    stampContent "ab".data [⟨['a'], ['1']⟩, ⟨['b'], ['2']⟩]
      = stampContent "ab".data [⟨['b'], ['2']⟩, ⟨['a'], ['1']⟩] :=
  c6_commute_amended 'a' 'b' ['1'] ['2'] "ab".data (by decide) (by decide)
    (by decide) (by decide) (by decide) (by decide)

/-- C7: rendering is pure: link, group and document rendering return the
entity unchanged (no mutation), a second render of the returned model
produces byte-identical text, and for a fixed model the rendered text
depends on the creation timestamp only through a final substitution of
`@GENERATED_DATE` into a timestamp-independent base text. -/
theorem c7_render_pure (lt gt ht : List Char) :
    (∀ l : Link, (linkToString lt l).2 = l)
    ∧ (∀ g : LinkGroup, (groupToString lt gt g).2 = g)
    ∧ (∀ m : HomerModel, (modelToString lt gt ht m).2 = m)
    ∧ (∀ m : HomerModel,
        (modelToString lt gt ht ((modelToString lt gt ht m).2)).1
          = (modelToString lt gt ht m).1)
    ∧ (∀ m : HomerModel, ∃ base, ∀ d,
        (modelToString lt gt ht { m with created_at := d }).1
          = pyReplace base "@GENERATED_DATE".data d) := by
  refine ⟨fun l => rfl, groupToString_snd lt gt, modelToString_snd lt gt ht, ?_, ?_⟩
  · intro m
    rw [modelToString_snd]
  · intro m
    exact ⟨_, fun d => modelToString_created lt gt ht m d⟩

/-- C9: in every model reachable from the empty model by
`add_link_group` / `add_link` operations, the current group is `none`
iff the group list is empty and otherwise indexes the last group; no
operation shortens the group list or changes the name, description or
existing links of any earlier group (links only get appended); and every
successful `add_link` appends its link to the most recently added
group. -/
theorem c9_model_invariants (created : List Char) (ops : List HOp) :
    ((applyOps created ops).current_link_group = none
        ↔ (applyOps created ops).link_groups = [])
    ∧ (∀ i, (applyOps created ops).current_link_group = some i →
        i + 1 = (applyOps created ops).link_groups.length)
    ∧ (∀ (m : HomerModel) (op : HOp),
        m.link_groups.length ≤ (applyOp m op).link_groups.length
        ∧ ∀ j, j < m.link_groups.length →
            ((applyOp m op).link_groups.getD j default).name
                = (m.link_groups.getD j default).name
            ∧ ((applyOp m op).link_groups.getD j default).description
                = (m.link_groups.getD j default).description
            ∧ ∃ ext, ((applyOp m op).link_groups.getD j default).links
                = (m.link_groups.getD j default).links ++ ext)
    ∧ (∀ (a u d : List Char) (m' : HomerModel),
        addLink (applyOps created ops) a u d = some m' →
          (applyOps created ops).link_groups ≠ []
          ∧ m'.link_groups.length = (applyOps created ops).link_groups.length
          ∧ (∀ j, j + 1 < (applyOps created ops).link_groups.length →
              m'.link_groups.getD j default
                = (applyOps created ops).link_groups.getD j default)
          ∧ (m'.link_groups.getD
                ((applyOps created ops).link_groups.length - 1) default).links
            = ((applyOps created ops).link_groups.getD
                ((applyOps created ops).link_groups.length - 1) default).links
              ++ [mkLink a u d]) := by
  have hinv := applyOps_inv created ops
  refine ⟨hinv.1, hinv.2, applyOp_preserve, ?_⟩
  intro a u d m' hsome
  cases hc : (applyOps created ops).current_link_group with
  | none => rw [addLink_eq_none a u d hc] at hsome; simp at hsome
  | some i =>
    rw [addLink_eq_some a u d hc] at hsome
    have hme := Option.some.inj hsome
    have hlen : i + 1 = (applyOps created ops).link_groups.length := hinv.2 i hc
    refine ⟨?_, ?_, ?_, ?_⟩
    · intro hnil
      rw [hnil] at hlen
      simp at hlen
    · rw [← hme]
      exact modifyAt_length _ _ _
    · intro j hj
      rw [← hme]
      exact modifyAt_getD_ne _ default i _ j (by omega)
    · have hi : (applyOps created ops).link_groups.length - 1 = i := by omega
      rw [← hme, hi,
        modifyAt_getD_self (fun g => { g with links := g.links ++ [mkLink a u d] })
          default i (applyOps created ops).link_groups (by omega)]

theorem c9_witness :
    (applyOps [] [HOp.addGroup ['A'] []]).link_groups ≠ [] :=
  ((c9_model_invariants [] [HOp.addGroup ['A'] []]).2.2.2 ['n'] ['u'] []
    ⟨some 0, [⟨['A'], [], [⟨['n'], httpsChars ++ ['u'], []⟩]⟩], []⟩ (by decide)).1
